import Mathlib

/-!
Verification development for the whispertype speaker-diarization scoring and
segment-merging core.

The embedding mirrors the Python sources:
  Spike/SpeakerDiarizationPython/spike_evaluate.py
  Spike/SpeakerDiarizationPython/spike_diarization_simple.py

Modelling conventions:
- Time values (seconds) are rationals; Python float arithmetic on the small
  decimal inputs involved is modelled exactly over the rationals.
- Frame grids are lists of Option String; a slot holding none is the Silence
  sentinel (Python uses the value None).
- A Python dict used as a speaker mapping is modelled as an association list
  with first-match lookup; all claims only read mappings through lookup and
  the scripts build them with distinct keys, so insertion-order details of
  dict do not matter.
- Python round(x, d) (round-half-even over binary floats) is modelled by the
  exact rational rounding roundTo d; claims speak of equality up to rounding,
  and every bound we prove holds for any rounding that moves a value by at
  most half of the last kept decimal place.
- int(x) applied to a nonnegative float is floor; the data model of the spec
  guarantees nonnegative segment starts, so startFrame uses floor composed
  with toNat.
-/

namespace WhisperType

/-- A time-interval speaker segment {speaker, start, end}. The Python dict
field named end is called stop here because end is a Lean keyword. -/
structure Segment where
  speaker : String
  start : ℚ
  stop : ℚ
  deriving Repr, DecidableEq

/-- Rounding to d decimal places, the model of Python round(x, d). -/
def roundTo (d : ℕ) (x : ℚ) : ℚ := (round (x * 10 ^ d) : ℚ) / 10 ^ d

/-- Lookup in an association-list mapping with a default value, the model of
Python mapping.get(key, default). -/
def mapGet (m : List (String × String)) (k d : String) : String :=
  ((m.find? (fun kv => kv.1 = k)).map (fun kv => kv.2)).getD d

/-- Number of frames of a grid: ceil(duration / frame_size), from
segments_to_frames in spike_evaluate.py. -/
def numFramesOf (duration frame_size : ℚ) : ℕ := ⌈duration / frame_size⌉.toNat

/-- First frame index of a segment: int(seg.start / frame_size). -/
def startFrame (seg : Segment) (frame_size : ℚ) : ℕ := ⌊seg.start / frame_size⌋.toNat

/-- One-past-last frame index of a segment before clamping:
ceil(seg.end / frame_size). -/
def endFrame (seg : Segment) (frame_size : ℚ) : ℕ := ⌈seg.stop / frame_size⌉.toNat

/-- The body of the inner loop of segments_to_frames: write the speaker of
seg into every slot of the clamped range [startFrame, min endFrame length). -/
def writeSegment (frames : List (Option String)) (seg : Segment) (frame_size : ℚ) :
    List (Option String) :=
  frames.mapIdx (fun i v =>
    if startFrame seg frame_size ≤ i ∧ i < min (endFrame seg frame_size) frames.length
    then some seg.speaker else v)

/-- segments_to_frames from spike_evaluate.py: a grid of
ceil(duration / frame_size) slots, all initialized to Silence (none), with
each segment written over it in input order. -/
def segments_to_frames (segments : List Segment) (duration : ℚ) (frame_size : ℚ) :
    List (Option String) :=
  segments.foldl (fun frames seg => writeSegment frames seg frame_size)
    (List.replicate (numFramesOf duration frame_size) none)

/-- Reading a grid slot; out-of-range reads give Silence, as the Python code
does explicitly wherever grids of different lengths meet. -/
def frameAt (grid : List (Option String)) (i : ℕ) : Option String := grid.getD i none

/-- Whether a segment covers frame i of a grid of n slots, after the
discretization and clamping of segments_to_frames. -/
def coversB (seg : Segment) (frame_size : ℚ) (n i : ℕ) : Bool :=
  decide (startFrame seg frame_size ≤ i) && decide (i < min (endFrame seg frame_size) n)

theorem length_writeSegment (frames : List (Option String)) (seg : Segment) (fs : ℚ) :
    (writeSegment frames seg fs).length = frames.length := by
  simp [writeSegment, List.length_mapIdx]

theorem length_segments_to_frames (segments : List Segment) (d fs : ℚ) :
    (segments_to_frames segments d fs).length = numFramesOf d fs := by
  unfold segments_to_frames
  induction segments using List.reverseRecOn with
  | nil => simp
  | append_singleton l s ih => simp [List.foldl_append, length_writeSegment, ih]

theorem frameAt_writeSegment (frames : List (Option String)) (seg : Segment) (fs : ℚ) (i : ℕ) :
    frameAt (writeSegment frames seg fs) i =
      if coversB seg fs frames.length i then
        (if i < frames.length then some seg.speaker else none)
      else frameAt frames i := by
  by_cases hi : i < frames.length
  · have hi' : i < (writeSegment frames seg fs).length := by
      rw [length_writeSegment]; exact hi
    have hget : (writeSegment frames seg fs).get ⟨i, hi'⟩ =
        (if startFrame seg fs ≤ i ∧ i < min (endFrame seg fs) frames.length
         then some seg.speaker else frames.get ⟨i, hi⟩) :=
      List.get_mapIdx frames _ i hi
    have h1 : frameAt (writeSegment frames seg fs) i =
        (writeSegment frames seg fs).get ⟨i, hi'⟩ := by
      simp [frameAt, List.getD_eq_getElem?_getD, List.getElem?_eq_getElem hi',
        List.get_eq_getElem]
    have h2 : frameAt frames i = frames.get ⟨i, hi⟩ := by
      simp [frameAt, List.getD_eq_getElem?_getD, List.getElem?_eq_getElem hi,
        List.get_eq_getElem]
    rw [h1, hget, h2]
    by_cases hc : startFrame seg fs ≤ i ∧ i < min (endFrame seg fs) frames.length
    · simp [coversB, hc.1, hc.2, hi]
    · have hcb : ¬ coversB seg fs frames.length i = true := by
        simp only [coversB, Bool.and_eq_true, decide_eq_true_eq]
        exact fun h => hc h
      rw [if_neg hc, if_neg hcb]
  · have hc : ¬ coversB seg fs frames.length i = true := by
      simp only [coversB, Bool.and_eq_true, decide_eq_true_eq]
      rintro ⟨-, hlt⟩
      exact hi (lt_of_lt_of_le hlt (Nat.min_le_right _ _))
    have hlen1 : (writeSegment frames seg fs).length ≤ i := by
      rw [length_writeSegment]; omega
    have hlen2 : frames.length ≤ i := by omega
    have h1 : frameAt (writeSegment frames seg fs) i = none := by
      simp [frameAt, List.getD_eq_getElem?_getD, List.getElem?_eq_none hlen1]
    have h2 : frameAt frames i = none := by
      simp [frameAt, List.getD_eq_getElem?_getD, List.getElem?_eq_none hlen2]
    simp [hc, h1, h2]

/-- The grid produced by segments_to_frames holds, at each slot, the speaker
of the last segment in input order covering that slot, and Silence when no
segment covers it. -/
theorem frameAt_segments_to_frames (segments : List Segment) (d fs : ℚ) (i : ℕ) :
    frameAt (segments_to_frames segments d fs) i =
      (segments.reverse.find? (fun s => coversB s fs (numFramesOf d fs) i)).map
        Segment.speaker := by
  unfold segments_to_frames
  induction segments using List.reverseRecOn with
  | nil =>
    by_cases hi : i < numFramesOf d fs
    · simp [frameAt, List.getD_eq_getElem?_getD, List.getElem?_replicate, hi]
    · have hlen : (List.replicate (numFramesOf d fs) (none : Option String)).length ≤ i := by
        rw [List.length_replicate]; omega
      simp [frameAt, List.getD_eq_getElem?_getD, List.getElem?_eq_none hlen]
  | append_singleton l s ih =>
    rw [List.foldl_append]
    have hlen : (l.foldl (fun frames seg => writeSegment frames seg fs)
        (List.replicate (numFramesOf d fs) none)).length = numFramesOf d fs := by
      have := length_segments_to_frames l d fs
      simpa [segments_to_frames] using this
    simp only [List.foldl_cons, List.foldl_nil]
    rw [frameAt_writeSegment, hlen]
    by_cases hc : coversB s fs (numFramesOf d fs) i = true
    · have hi : i < numFramesOf d fs := by
        simp only [coversB, Bool.and_eq_true, decide_eq_true_eq] at hc
        exact lt_of_lt_of_le hc.2 (Nat.min_le_right _ _)
      simp [hc, hi, List.reverse_append, List.find?_cons_of_pos _ hc]
    · simp [hc, List.reverse_append, List.find?_cons_of_neg _ hc, ih]

/-! ### compute_accuracy from spike_evaluate.py -/

/-- One ground-truth frame of the accuracy loop: silence frames are skipped,
voiced frames add one to the total, and add one to the correct count exactly
when the prediction is voiced and its mapped label equals the truth. -/
def accuracyStep (pred_frames : List (Option String)) (mapping : List (String × String))
    (ct : ℕ × ℕ) (ig : ℕ × Option String) : ℕ × ℕ :=
  match ig.2 with
  | none => ct
  | some gl =>
    match frameAt pred_frames ig.1 with
    | none => (ct.1, ct.2 + 1)
    | some pl => ((if mapGet mapping pl pl = gl then ct.1 + 1 else ct.1), ct.2 + 1)

/-- compute_accuracy from spike_evaluate.py. The collar_frames parameter is
declared by the source but never read by its body. -/
def compute_accuracy (pred_frames gt_frames : List (Option String))
    (mapping : List (String × String)) (collar_frames : ℕ := 2) : ℚ :=
  let ct := gt_frames.enum.foldl (accuracyStep pred_frames mapping) (0, 0)
  if ct.2 = 0 then 0 else (ct.1 : ℚ) / (ct.2 : ℚ)

/-- A frame counts as correct: ground truth voiced, prediction voiced, and the
mapped predicted label equals the ground-truth label. -/
def frameOK (pred_frames : List (Option String)) (mapping : List (String × String))
    (i : ℕ) (gl : Option String) : Bool :=
  match gl, frameAt pred_frames i with
  | some g, some p => mapGet mapping p p == g
  | _, _ => false

theorem accuracy_counts (p : List (Option String)) (m : List (String × String)) :
    ∀ (g : List (Option String)) (k : ℕ) (c t : ℕ),
      (g.enumFrom k).foldl (accuracyStep p m) (c, t) =
        (c + (g.enumFrom k).countP (fun ig => frameOK p m ig.1 ig.2),
         t + g.countP (fun gl => gl.isSome)) := by
  intro g
  induction g with
  | nil => intro k c t; simp
  | cons a g ih =>
    intro k c t
    rw [List.enumFrom_cons]
    cases a with
    | none =>
      simp only [List.foldl_cons, accuracyStep, ih]
      have h1 : frameOK p m k none = false := rfl
      simp [h1, List.countP_cons]
    | some gl =>
      cases hp : frameAt p k with
      | none =>
        simp only [List.foldl_cons, accuracyStep, hp, ih]
        have h1 : frameOK p m k (some gl) = false := by
          simp [frameOK, hp]
        simp [h1, List.countP_cons]
        omega
      | some pl =>
        by_cases he : mapGet m pl pl = gl
        · simp only [List.foldl_cons, accuracyStep, hp, if_pos he, ih]
          have h1 : frameOK p m k (some gl) = true := by
            simp [frameOK, hp, he]
          simp [h1, List.countP_cons]
          omega
        · simp only [List.foldl_cons, accuracyStep, hp, if_neg he, ih]
          have h1 : frameOK p m k (some gl) = false := by
            simp [frameOK, hp]
            exact fun h => absurd h he
          simp [h1, List.countP_cons]
          omega

theorem compute_accuracy_eq_counts (p g : List (Option String))
    (m : List (String × String)) (collar : ℕ) :
    compute_accuracy p g m collar =
      (if g.countP (fun gl => gl.isSome) = 0 then 0
       else ((g.enum.countP (fun ig => frameOK p m ig.1 ig.2) : ℚ) /
             (g.countP (fun gl => gl.isSome) : ℚ))) := by
  unfold compute_accuracy
  rw [show g.enum = g.enumFrom 0 from rfl, accuracy_counts]
  simp

theorem compute_accuracy_nonneg (p g : List (Option String))
    (m : List (String × String)) (collar : ℕ) :
    0 ≤ compute_accuracy p g m collar := by
  rw [compute_accuracy_eq_counts]
  by_cases h : g.countP (fun gl => gl.isSome) = 0
  · simp [h]
  · rw [if_neg h]
    positivity

/-! ### compute_der_components from spike_evaluate.py -/

/-- The DER components record returned by compute_der_components. -/
structure DerComponents where
  missed_speech : ℕ
  false_alarm : ℕ
  speaker_confusion : ℕ
  total_speech_frames : ℕ
  der : ℚ
  deriving Repr, DecidableEq

/-- One frame of the DER loop, over state
(missed, false_alarm, confusion, total_speech); out-of-range frames of either
grid read as Silence. -/
def derStep (pred_frames gt_frames : List (Option String))
    (mapping : List (String × String)) (st : ℕ × ℕ × ℕ × ℕ) (i : ℕ) : ℕ × ℕ × ℕ × ℕ :=
  match frameAt gt_frames i with
  | some gl =>
    match frameAt pred_frames i with
    | none => (st.1 + 1, st.2.1, st.2.2.1, st.2.2.2 + 1)
    | some pl =>
      (st.1, st.2.1, st.2.2.1 + (if mapGet mapping pl pl ≠ gl then 1 else 0), st.2.2.2 + 1)
  | none =>
    match frameAt pred_frames i with
    | some _ => (st.1, st.2.1 + 1, st.2.2.1, st.2.2.2)
    | none => st

/-- The tail of compute_der_components: package the four loop counters and
der = round(der_ratio * 100, 2), where der_ratio is 0 when total is 0. -/
def derFromCounts (st : ℕ × ℕ × ℕ × ℕ) : DerComponents :=
  ⟨st.1, st.2.1, st.2.2.1, st.2.2.2,
   roundTo 2 ((if st.2.2.2 = 0 then 0
     else ((st.1 : ℚ) + (st.2.1 : ℚ) + (st.2.2.1 : ℚ)) / (st.2.2.2 : ℚ)) * 100)⟩

/-- compute_der_components from spike_evaluate.py: loop over the union length
of both grids, then der = round(100 * (missed + fa + confusion) / total, 2)
with der = 0 when total is 0. -/
def compute_der_components (pred_frames gt_frames : List (Option String))
    (mapping : List (String × String)) : DerComponents :=
  derFromCounts ((List.range (max pred_frames.length gt_frames.length)).foldl
    (derStep pred_frames gt_frames mapping) (0, 0, 0, 0))

/-- Frame i is missed speech: truth voiced, prediction silent. -/
def missedB (p g : List (Option String)) (i : ℕ) : Bool :=
  (frameAt g i).isSome && (frameAt p i).isNone

/-- Frame i is a false alarm: truth silent, prediction voiced. -/
def falseAlarmB (p g : List (Option String)) (i : ℕ) : Bool :=
  (frameAt g i).isNone && (frameAt p i).isSome

/-- Frame i is speaker confusion: both voiced, mapped prediction differs. -/
def confusionB (p g : List (Option String)) (m : List (String × String)) (i : ℕ) : Bool :=
  match frameAt g i, frameAt p i with
  | some gl, some pl => !(mapGet m pl pl == gl)
  | _, _ => false

/-- Frame i is ground-truth speech. -/
def speechB (g : List (Option String)) (i : ℕ) : Bool := (frameAt g i).isSome

theorem der_counts (p g : List (Option String)) (m : List (String × String)) :
    ∀ (idxs : List ℕ) (st : ℕ × ℕ × ℕ × ℕ),
      idxs.foldl (derStep p g m) st =
        (st.1 + idxs.countP (missedB p g),
         st.2.1 + idxs.countP (falseAlarmB p g),
         st.2.2.1 + idxs.countP (confusionB p g m),
         st.2.2.2 + idxs.countP (speechB g)) := by
  intro idxs
  induction idxs with
  | nil => intro st; simp
  | cons i idxs ih =>
    intro st
    rw [List.foldl_cons, ih]
    cases hg : frameAt g i with
    | none =>
      cases hp : frameAt p i with
      | none =>
        have hd : derStep p g m st i = st := by simp [derStep, hg, hp]
        simp [hd, List.countP_cons, missedB, falseAlarmB, confusionB, speechB, hg, hp]
      | some pl =>
        have hd : derStep p g m st i = (st.1, st.2.1 + 1, st.2.2.1, st.2.2.2) := by
          simp [derStep, hg, hp]
        simp [hd, List.countP_cons, missedB, falseAlarmB, confusionB, speechB, hg, hp]
        omega
    | some gl =>
      cases hp : frameAt p i with
      | none =>
        have hd : derStep p g m st i = (st.1 + 1, st.2.1, st.2.2.1, st.2.2.2 + 1) := by
          simp [derStep, hg, hp]
        simp [hd, List.countP_cons, missedB, falseAlarmB, confusionB, speechB, hg, hp]
        omega
      | some pl =>
        by_cases he : mapGet m pl pl = gl
        · have hd : derStep p g m st i = (st.1, st.2.1, st.2.2.1, st.2.2.2 + 1) := by
            simp [derStep, hg, hp, he]
          simp [hd, List.countP_cons, missedB, falseAlarmB, confusionB, speechB, hg, hp, he]
          omega
        · have hd : derStep p g m st i =
              (st.1, st.2.1, st.2.2.1 + 1, st.2.2.2 + 1) := by
            simp [derStep, hg, hp, he]
          simp [hd, List.countP_cons, missedB, falseAlarmB, confusionB, speechB, hg, hp, he]
          omega

theorem roundTo_close (d : ℕ) (x : ℚ) : |roundTo d x - x| ≤ 1 / (2 * 10 ^ d) := by
  unfold roundTo
  have h10 : (0 : ℚ) < 10 ^ d := by positivity
  have h := abs_sub_round (x * 10 ^ d)
  have heq : (round (x * 10 ^ d) : ℚ) / 10 ^ d - x =
      ((round (x * 10 ^ d) : ℚ) - x * 10 ^ d) / 10 ^ d := by
    field_simp
    ring
  rw [heq, abs_div, abs_of_pos h10, div_le_div_iff h10 (by positivity)]
  rw [abs_sub_comm] at h
  calc |(round (x * 10 ^ d) : ℚ) - x * 10 ^ d| * (2 * 10 ^ d)
      ≤ (1 / 2) * (2 * 10 ^ d) := by
        apply mul_le_mul_of_nonneg_right h (by positivity)
    _ = 1 * 10 ^ d := by ring

/-! ### find_best_mapping from spike_evaluate.py -/

/-- itertools.permutations(l, k): every ordered selection of k elements of l
at distinct positions, in lexicographic order of the chosen positions. -/
def pick : ℕ → List String → List (List String)
  | 0, _ => [[]]
  | k + 1, l =>
    (List.range l.length).flatMap (fun i =>
      (pick k (l.eraseIdx i)).map (fun rest => l.getD i "" :: rest))

/-- Lookup of a key in an association-list mapping, the model of reading a
Python dict entry. -/
def mapLookup (m : List (String × String)) (k : String) : Option String :=
  (m.find? (fun kv => kv.1 = k)).map (fun kv => kv.2)

/-- The candidate mapping built in the excess-prediction branch of
find_best_mapping: the selected predicted ids pair positionally with the
ground-truth ids, and every other predicted id is sent to gt_speakers[0]. -/
def buildFull (perm gt_speakers pred_speakers : List String) : List (String × String) :=
  perm.zip gt_speakers ++
    (pred_speakers.filter (fun p => !(perm.contains p))).map
      (fun p => (p, gt_speakers.headD ""))

/-- The full candidate list enumerated by find_best_mapping, in enumeration
order. -/
def candidate_mappings (pred_speakers gt_speakers : List String) :
    List (List (String × String)) :=
  if pred_speakers.length ≤ gt_speakers.length then
    (pick pred_speakers.length gt_speakers).map (fun perm => pred_speakers.zip perm)
  else
    (pick gt_speakers.length pred_speakers).map
      (fun perm => buildFull perm gt_speakers pred_speakers)

/-- One candidate of the best-mapping scan: keep the new mapping exactly when
its accuracy strictly exceeds the best seen so far. -/
def bestStep (pred_frames gt_frames : List (Option String))
    (best : List (String × String) × ℚ) (m : List (String × String)) :
    List (String × String) × ℚ :=
  let acc := compute_accuracy pred_frames gt_frames m 2
  if best.2 < acc then (m, acc) else best

/-- find_best_mapping from spike_evaluate.py. -/
def find_best_mapping (pred_speakers gt_speakers : List String)
    (pred_frames gt_frames : List (Option String)) : List (String × String) × ℚ :=
  if pred_speakers.length = 0 ∨ gt_speakers.length = 0 then ([], 0)
  else if gt_frames.all (fun s => s.isNone) then ([], 1)
  else (candidate_mappings pred_speakers gt_speakers).foldl
    (bestStep pred_frames gt_frames) ([], 0)

theorem foldl_bestStep_spec (p g : List (Option String)) :
    ∀ (l : List (List (String × String))) (b : List (String × String) × ℚ),
      b.2 ≤ (l.foldl (bestStep p g) b).2 ∧
      ((l.foldl (bestStep p g) b = b ∧
          ∀ m ∈ l, compute_accuracy p g m 2 ≤ b.2) ∨
        (∃ pre post, l = pre ++ (l.foldl (bestStep p g) b).1 :: post ∧
          compute_accuracy p g (l.foldl (bestStep p g) b).1 2 = (l.foldl (bestStep p g) b).2 ∧
          b.2 < (l.foldl (bestStep p g) b).2 ∧
          (∀ m ∈ pre, compute_accuracy p g m 2 < (l.foldl (bestStep p g) b).2) ∧
          (∀ m ∈ post, compute_accuracy p g m 2 ≤ (l.foldl (bestStep p g) b).2))) := by
  intro l
  induction l with
  | nil => intro b; exact ⟨le_refl _, Or.inl ⟨rfl, by simp⟩⟩
  | cons m t ih =>
    intro b
    by_cases hm : b.2 < compute_accuracy p g m 2
    · have hstep : bestStep p g b m = (m, compute_accuracy p g m 2) := by
        simp [bestStep, hm]
      rw [List.foldl_cons, hstep]
      obtain ⟨hle, hcase⟩ := ih (m, compute_accuracy p g m 2)
      refine ⟨le_trans (le_of_lt hm) hle, Or.inr ?_⟩
      rcases hcase with ⟨heq, hall⟩ | ⟨pre, post, hsplit, hacc, hlt, hpre, hpost⟩
      · refine ⟨[], t, ?_, ?_, ?_, ?_, ?_⟩
        · simp [heq]
        · rw [heq]
        · rw [heq]; exact hm
        · simp
        · intro m' hm'
          exact le_trans (hall m' hm') (by rw [heq])
      · refine ⟨m :: pre, post, ?_, hacc, lt_trans hm hlt, ?_, hpost⟩
        · rw [List.cons_append, ← hsplit]
        · intro m' hm'
          rcases List.mem_cons.mp hm' with h | h
          · subst h; exact hlt
          · exact hpre m' h
    · have hstep : bestStep p g b m = b := by
        simp only [bestStep]
        rw [if_neg hm]
      rw [List.foldl_cons, hstep]
      obtain ⟨hle, hcase⟩ := ih b
      refine ⟨hle, ?_⟩
      rcases hcase with ⟨heq, hall⟩ | ⟨pre, post, hsplit, hacc, hlt, hpre, hpost⟩
      · refine Or.inl ⟨heq, ?_⟩
        intro m' hm'
        rcases List.mem_cons.mp hm' with h | h
        · subst h; exact le_of_not_lt hm
        · exact hall m' h
      · refine Or.inr ⟨m :: pre, post, by rw [List.cons_append, ← hsplit], hacc, hlt, ?_, hpost⟩
        intro m' hm'
        rcases List.mem_cons.mp hm' with h | h
        · subst h; exact lt_of_le_of_lt (le_of_not_lt hm) hlt
        · exact hpre m' h

theorem pick_length : ∀ (k : ℕ) (l : List String), ∀ perm ∈ pick k l, perm.length = k := by
  intro k
  induction k with
  | zero => intro l perm hperm; simp [pick] at hperm; simp [hperm]
  | succ k ih =>
    intro l perm hperm
    simp only [pick, List.mem_flatMap, List.mem_map, List.mem_range] at hperm
    obtain ⟨i, -, rest, hrest, hcons⟩ := hperm
    rw [← hcons, List.length_cons, ih _ rest hrest]

theorem pick_ne_nil : ∀ (k : ℕ) (l : List String), k ≤ l.length → pick k l ≠ [] := by
  intro k
  induction k with
  | zero => intro l _; simp [pick]
  | succ k ih =>
    intro l hk
    have hlpos : 0 < l.length := by omega
    have hk' : k ≤ (l.eraseIdx 0).length := by
      rw [List.length_eraseIdx_of_lt hlpos]; omega
    have hne := ih (l.eraseIdx 0) hk'
    obtain ⟨rest, hrest⟩ := List.exists_mem_of_ne_nil _ hne
    have : l.getD 0 "" :: rest ∈ pick (k + 1) l := by
      simp only [pick, List.mem_flatMap, List.mem_map, List.mem_range]
      exact ⟨0, hlpos, rest, hrest, rfl⟩
    exact List.ne_nil_of_mem this

theorem find?_zip_none :
    ∀ (perm : List String) (gs : List String) (p : String), p ∉ perm →
      (perm.zip gs).find? (fun kv => kv.1 = p) = none := by
  intro perm
  induction perm with
  | nil => intro gs p _; simp
  | cons q perm ih =>
    intro gs p hp
    cases gs with
    | nil => simp
    | cons g gs =>
      have hq : ¬ q = p := fun h => hp (h ▸ List.mem_cons_self q perm)
      simp only [List.zip_cons_cons]
      rw [List.find?_cons_of_neg _ (by simpa using hq)]
      exact ih gs p (fun h => hp (List.mem_cons_of_mem q h))

theorem find?_zip_some :
    ∀ (perm : List String) (gs : List String) (p : String),
      p ∈ perm → perm.length ≤ gs.length →
      ∃ kv, (perm.zip gs).find? (fun kv => kv.1 = p) = some kv := by
  intro perm
  induction perm with
  | nil => intro gs p hp; simp at hp
  | cons q perm ih =>
    intro gs p hp hlen
    cases gs with
    | nil => simp at hlen
    | cons g gs =>
      simp only [List.zip_cons_cons]
      by_cases hq : q = p
      · exact ⟨(q, g), List.find?_cons_of_pos _ (by simpa using hq)⟩
      · rcases List.mem_cons.mp hp with h | h
        · exact absurd h.symm hq
        · obtain ⟨kv, hkv⟩ := ih gs p h (by simpa using Nat.le_of_succ_le_succ hlen)
          exact ⟨kv, by rw [List.find?_cons_of_neg _ (by simpa using hq)]; exact hkv⟩

theorem find?_self_mem :
    ∀ (l : List String) (p : String), p ∈ l → l.find? (fun q => q = p) = some p := by
  intro l
  induction l with
  | nil => intro p hp; simp at hp
  | cons a l ih =>
    intro p hp
    by_cases ha : a = p
    · rw [List.find?_cons_of_pos _ (by simpa using ha), ha]
    · rcases List.mem_cons.mp hp with h | h
      · exact absurd h.symm ha
      · rw [List.find?_cons_of_neg _ (by simpa using ha)]
        exact ih p h

/-- In a candidate of the excess-prediction branch, every predicted id left
out of the selected permutation is looked up to the head of the ground-truth
list as given, gt_speakers[0]. -/
theorem buildFull_default (ps gs perm : List String) (p : String)
    (hp : p ∈ ps) (hnp : p ∉ perm) :
    mapLookup (buildFull perm gs ps) p = some (gs.headD "") := by
  unfold mapLookup buildFull
  rw [List.find?_append, find?_zip_none perm gs p hnp, Option.none_or]
  rw [List.find?_map]
  have hpf : p ∈ ps.filter (fun q => !(perm.contains q)) := by
    rw [List.mem_filter]
    refine ⟨hp, ?_⟩
    simp only [Bool.not_eq_true', ← Bool.not_eq_true]
    intro hcon
    exact hnp (by simpa [List.contains, List.elem_iff] using hcon)
  have : (ps.filter (fun q => !(perm.contains q))).find?
      ((fun kv : String × String => decide (kv.1 = p)) ∘ (fun q => (q, gs.headD ""))) =
      some p := by
    have hfun : ((fun kv : String × String => decide (kv.1 = p)) ∘
        (fun q => (q, gs.headD ""))) = (fun q => decide (q = p)) := rfl
    rw [hfun]
    exact find?_self_mem _ p hpf
  rw [this]
  rfl

/-- In a candidate of the excess-prediction branch, every selected predicted
id is looked up successfully (the mapping is total on the predicted ids
together with buildFull_default). -/
theorem buildFull_total_sel (ps gs perm : List String) (p : String)
    (hp : p ∈ perm) (hlen : perm.length ≤ gs.length) :
    ∃ g, mapLookup (buildFull perm gs ps) p = some g := by
  unfold mapLookup buildFull
  obtain ⟨kv, hkv⟩ := find?_zip_some perm gs p hp hlen
  rw [List.find?_append, hkv]
  exact ⟨kv.2, rfl⟩

/-! ### labels_to_segments from spike_diarization_simple.py -/

/-- The speaker label derived from a cluster id, Python
"SPEAKER_" + format(label, "02d"): zero padded to two digits. -/
def speakerName (label : ℤ) : String :=
  "SPEAKER_" ++ (if 0 ≤ label ∧ label < 10 then "0" ++ toString label else toString label)

/-- One frame of the label-to-segment state machine. State: the closed
segments so far and the open segment (speaker, unrounded start), if any.
Boundaries are frame_center - hop / 2; emitted times are rounded to
milliseconds. -/
def diarizeStep (hop : ℚ) (st : List Segment × Option (String × ℚ))
    (fr : ℤ × Bool × ℚ) : List Segment × Option (String × ℚ) :=
  let t := fr.2.2
  if fr.2.1 then
    let sp := speakerName fr.1
    match st.2 with
    | some cs =>
      if sp = cs.1 then st
      else (st.1 ++ [⟨cs.1, roundTo 3 cs.2, roundTo 3 (t - hop / 2)⟩], some (sp, t - hop / 2))
    | none => (st.1, some (sp, t - hop / 2))
  else
    match st.2 with
    | some cs => (st.1 ++ [⟨cs.1, roundTo 3 cs.2, roundTo 3 (t - hop / 2)⟩], none)
    | none => st

/-- The segment list before the gap-merge pass: run the state machine over
the zipped (label, is_speech, time) frames and close any open segment at
last_time + hop / 2. -/
def rawSegments (labels : List ℤ) (speech_mask : List Bool) (times : List ℚ)
    (hop : ℚ) : List Segment :=
  let frames := labels.zip (speech_mask.zip times)
  let st := frames.foldl (diarizeStep hop) ([], none)
  match st.2 with
  | some cs => st.1 ++ [⟨cs.1, roundTo 3 cs.2, roundTo 3 (times.getLastD 0 + hop / 2)⟩]
  | none => st.1

/-- The inner scan of the short-gap merge pass: cur is the last emitted
segment, still open to absorbing followers of the same speaker within a gap
strictly below 0.3 s. -/
def mergeAux (cur : Segment) : List Segment → List Segment
  | [] => [cur]
  | s :: rest =>
    if s.speaker = cur.speaker ∧ s.start - cur.stop < 3 / 10 then
      mergeAux { cur with stop := s.stop } rest
    else
      cur :: mergeAux s rest

/-- The short-gap merge pass of labels_to_segments. -/
def mergeGaps : List Segment → List Segment
  | [] => []
  | s :: rest => mergeAux s rest

/-- labels_to_segments from spike_diarization_simple.py: the state machine
followed by the short-gap merge pass. -/
def labels_to_segments (labels : List ℤ) (speech_mask : List Bool)
    (times : List ℚ) (hop : ℚ) : List Segment :=
  mergeGaps (rawSegments labels speech_mask times hop)

/-- No adjacent pair of the list can still be merged by the gap pass. -/
def settledGaps (l : List Segment) : Prop :=
  List.Chain' (fun a b => ¬(b.speaker = a.speaker ∧ b.start - a.stop < 3 / 10)) l

theorem mergeAux_head :
    ∀ (l : List Segment) (cur : Segment),
      ∃ e rest, mergeAux cur l = ⟨cur.speaker, cur.start, e⟩ :: rest := by
  intro l
  induction l with
  | nil =>
    intro cur
    exact ⟨cur.stop, [], rfl⟩
  | cons s rest ih =>
    intro cur
    by_cases hc : s.speaker = cur.speaker ∧ s.start - cur.stop < 3 / 10
    · obtain ⟨e, tail, htail⟩ := ih { cur with stop := s.stop }
      exact ⟨e, tail, by rw [mergeAux, if_pos hc]; exact htail⟩
    · exact ⟨cur.stop, mergeAux s rest, by rw [mergeAux, if_neg hc]⟩

theorem settledGaps_mergeAux :
    ∀ (l : List Segment) (cur : Segment), settledGaps (mergeAux cur l) := by
  intro l
  induction l with
  | nil => intro cur; simp [mergeAux, settledGaps]
  | cons s rest ih =>
    intro cur
    by_cases hc : s.speaker = cur.speaker ∧ s.start - cur.stop < 3 / 10
    · rw [mergeAux, if_pos hc]
      exact ih _
    · rw [mergeAux, if_neg hc]
      obtain ⟨e, tail, htail⟩ := mergeAux_head rest s
      rw [htail]
      refine List.Chain'.cons ?_ (htail ▸ ih s)
      exact fun h => hc ⟨h.1, h.2⟩

theorem mergeAux_of_settled :
    ∀ (l : List Segment) (cur : Segment), settledGaps (cur :: l) →
      mergeAux cur l = cur :: l := by
  intro l
  induction l with
  | nil => intro cur _; rfl
  | cons s rest ih =>
    intro cur hs
    have h1 : ¬(s.speaker = cur.speaker ∧ s.start - cur.stop < 3 / 10) :=
      (List.chain'_cons.mp hs).1
    rw [mergeAux, if_neg h1]
    rw [ih s (List.chain'_cons.mp hs).2]

theorem mergeGaps_of_settled (l : List Segment) (h : settledGaps l) :
    mergeGaps l = l := by
  cases l with
  | nil => rfl
  | cons s rest => exact mergeAux_of_settled rest s h

theorem settledGaps_mergeGaps (l : List Segment) : settledGaps (mergeGaps l) := by
  cases l with
  | nil => simp [mergeGaps, settledGaps]
  | cons s rest => exact settledGaps_mergeAux rest s

theorem roundTo_mono (d : ℕ) {x y : ℚ} (h : x ≤ y) : roundTo d x ≤ roundTo d y := by
  unfold roundTo
  have h1 : round (x * 10 ^ d) ≤ round (y * 10 ^ d) := by
    rw [round_eq, round_eq]
    apply Int.floor_le_floor
    have := mul_le_mul_of_nonneg_right h (by positivity : (0:ℚ) ≤ 10 ^ d)
    linarith
  have h2 : ((round (x * 10 ^ d) : ℤ) : ℚ) ≤ ((round (y * 10 ^ d) : ℤ) : ℚ) := by
    exact_mod_cast h1
  rw [div_eq_mul_inv, div_eq_mul_inv]
  exact mul_le_mul_of_nonneg_right h2 (by positivity)

theorem roundTo_add_unit (d : ℕ) (x : ℚ) :
    roundTo d (x + 1 / 10 ^ d) = roundTo d x + 1 / 10 ^ d := by
  unfold roundTo
  have h10 : (10:ℚ) ^ d ≠ 0 := by positivity
  have h1 : (x + 1 / 10 ^ d) * 10 ^ d = x * 10 ^ d + ((1:ℤ):ℚ) := by
    push_cast
    field_simp
  rw [h1, round_add_int]
  push_cast
  rw [add_div]

theorem roundTo_lt (d : ℕ) {x y : ℚ} (h : x + 1 / 10 ^ d ≤ y) :
    roundTo d x < roundTo d y := by
  have h1 : roundTo d (x + 1 / 10 ^ d) ≤ roundTo d y := roundTo_mono d h
  rw [roundTo_add_unit] at h1
  have h2 : (0:ℚ) < 1 / 10 ^ d := by positivity
  linarith

/-- Output validity for re-ingestion: every segment has start strictly below
end, and consecutive segments do not go back in time. -/
def wellFormed (l : List Segment) : Prop :=
  (∀ s ∈ l, s.start < s.stop) ∧ List.Chain' (fun a b => a.stop ≤ b.start) l

theorem wellFormed_append_one (l : List Segment) (x : Segment)
    (hwf : wellFormed l) (hx : x.start < x.stop)
    (hle : ∀ s ∈ l, s.stop ≤ x.start) : wellFormed (l ++ [x]) := by
  constructor
  · intro s hs
    rcases List.mem_append.mp hs with h | h
    · exact hwf.1 s h
    · rw [List.mem_singleton.mp h]; exact hx
  · rw [List.chain'_append]
    refine ⟨hwf.2, List.chain'_singleton x, ?_⟩
    intro a ha b hb
    rw [List.head?_cons, Option.mem_some_iff] at hb
    subst hb
    apply hle
    exact List.mem_of_getLast?_eq_some ha

theorem mergeAux_wellFormed :
    ∀ (l : List Segment) (cur : Segment), wellFormed (cur :: l) →
      wellFormed (mergeAux cur l) := by
  intro l
  induction l with
  | nil => intro cur h; exact h
  | cons s rest ih =>
    intro cur h
    obtain ⟨hstarts, hchain⟩ := h
    rw [List.chain'_cons] at hchain
    by_cases hc : s.speaker = cur.speaker ∧ s.start - cur.stop < 3 / 10
    · rw [mergeAux, if_pos hc]
      apply ih
      constructor
      · intro x hx
        rcases List.mem_cons.mp hx with hx | hx
        · subst hx
          show cur.start < s.stop
          have h1 : cur.start < cur.stop := hstarts cur (by simp)
          have h2 : cur.stop ≤ s.start := hchain.1
          have h3 : s.start < s.stop := hstarts s (by simp)
          linarith
        · exact hstarts x (by simp [hx])
      · rw [List.chain'_cons']
        refine ⟨?_, (List.chain'_cons'.mp hchain.2).2⟩
        intro b hb
        show s.stop ≤ b.start
        exact (List.chain'_cons'.mp hchain.2).1 b hb
    · rw [mergeAux, if_neg hc]
      have hwf' : wellFormed (mergeAux s rest) := by
        apply ih
        exact ⟨fun x hx => hstarts x (by simp [hx]), hchain.2⟩
      constructor
      · intro x hx
        rcases List.mem_cons.mp hx with hx | hx
        · subst hx; exact hstarts x (by simp)
        · exact hwf'.1 x hx
      · rw [List.chain'_cons']
        refine ⟨?_, hwf'.2⟩
        intro b hb
        obtain ⟨e, tail, htail⟩ := mergeAux_head rest s
        rw [htail, List.head?_cons, Option.mem_some_iff] at hb
        subst hb
        show cur.stop ≤ s.start
        exact hchain.1

theorem mergeGaps_wellFormed (l : List Segment) (h : wellFormed l) :
    wellFormed (mergeGaps l) := by
  cases l with
  | nil => exact h
  | cons s rest => exact mergeAux_wellFormed rest s h

/-- Invariant of the label-to-segment state machine before the frame at time
tNext is processed: the closed segments are well formed and end no later than
any boundary still to be emitted, and an open segment started at least one
hop before the previous boundary. -/
def openInv (hop tNext : ℚ) (st : List Segment × Option (String × ℚ)) : Prop :=
  wellFormed st.1 ∧
  (match st.2 with
   | none => ∀ s ∈ st.1, s.stop ≤ roundTo 3 (tNext - hop / 2)
   | some cs => (∀ s ∈ st.1, s.stop ≤ roundTo 3 cs.2) ∧ cs.2 + hop ≤ tNext - hop / 2)

theorem diarizeStep_inv (hop : ℚ) (hhop : 1 / 1000 ≤ hop) (tN : ℚ)
    (segs : List Segment) (cur : Option (String × ℚ)) (lab : ℤ) (b : Bool)
    (h : openInv hop tN (segs, cur)) :
    openInv hop (tN + hop) (diarizeStep hop (segs, cur) (lab, b, tN)) := by
  have hround : roundTo 3 (tN - hop / 2) ≤ roundTo 3 (tN + hop - hop / 2) :=
    roundTo_mono 3 (by linarith)
  cases b with
  | false =>
    cases cur with
    | none =>
      obtain ⟨hwf, hclosed⟩ := h
      exact ⟨hwf, fun s hs => le_trans (hclosed s hs) hround⟩
    | some cs =>
      obtain ⟨hwf, hopen, hstart⟩ := h
      show openInv hop (tN + hop)
        (segs ++ [⟨cs.1, roundTo 3 cs.2, roundTo 3 (tN - hop / 2)⟩], none)
      have hx : roundTo 3 cs.2 < roundTo 3 (tN - hop / 2) := by
        apply roundTo_lt 3
        have : (1:ℚ) / 10 ^ 3 = 1 / 1000 := by norm_num
        rw [this]
        linarith
      have hmono : roundTo 3 cs.2 ≤ roundTo 3 (tN - hop / 2) := le_of_lt hx
      refine ⟨wellFormed_append_one segs _ hwf hx hopen, ?_⟩
      intro s hs
      rcases List.mem_append.mp hs with hmem | hmem
      · exact le_trans (hopen s hmem) (le_trans hmono hround)
      · rw [List.mem_singleton.mp hmem]
        exact hround
  | true =>
    cases cur with
    | none =>
      obtain ⟨hwf, hclosed⟩ := h
      show openInv hop (tN + hop) (segs, some (speakerName lab, tN - hop / 2))
      exact ⟨hwf, hclosed, by linarith⟩
    | some cs =>
      by_cases hsp : speakerName lab = cs.1
      · obtain ⟨hwf, hopen, hstart⟩ := h
        have hred : diarizeStep hop (segs, some cs) (lab, true, tN) = (segs, some cs) := by
          simp [diarizeStep, hsp]
        rw [hred]
        exact ⟨hwf, hopen, by linarith⟩
      · obtain ⟨hwf, hopen, hstart⟩ := h
        have hred : diarizeStep hop (segs, some cs) (lab, true, tN) =
            (segs ++ [⟨cs.1, roundTo 3 cs.2, roundTo 3 (tN - hop / 2)⟩],
             some (speakerName lab, tN - hop / 2)) := by
          simp [diarizeStep, hsp]
        rw [hred]
        have hx : roundTo 3 cs.2 < roundTo 3 (tN - hop / 2) := by
          apply roundTo_lt 3
          have : (1:ℚ) / 10 ^ 3 = 1 / 1000 := by norm_num
          rw [this]
          linarith
        refine ⟨wellFormed_append_one segs _ hwf hx hopen, ?_, by linarith⟩
        intro s hs
        rcases List.mem_append.mp hs with hmem | hmem
        · exact le_trans (hopen s hmem) (le_of_lt hx)
        · rw [List.mem_singleton.mp hmem]

/-- The frame list of the state machine, paired with its arithmetic frame
times: frame k carries time t0 + k * hop. -/
def attachTimes (hop : ℚ) : List (ℤ × Bool) → ℚ → List (ℤ × Bool × ℚ)
  | [], _ => []
  | f :: rest, t => (f.1, f.2, t) :: attachTimes hop rest (t + hop)

theorem foldl_diarize_inv (hop : ℚ) (hhop : 1 / 1000 ≤ hop) :
    ∀ (fs : List (ℤ × Bool)) (t0 : ℚ) (st : List Segment × Option (String × ℚ)),
      openInv hop t0 st →
      openInv hop (t0 + fs.length * hop)
        ((attachTimes hop fs t0).foldl (diarizeStep hop) st) := by
  intro fs
  induction fs with
  | nil =>
    intro t0 st h
    simpa [attachTimes] using h
  | cons f fs ih =>
    intro t0 st h
    have hstep : openInv hop (t0 + hop) (diarizeStep hop st (f.1, f.2, t0)) := by
      have := diarizeStep_inv hop hhop t0 st.1 st.2 f.1 f.2 (by simpa using h)
      simpa using this
    have := ih (t0 + hop) _ hstep
    have harith : t0 + hop + (fs.length : ℚ) * hop = t0 + ((fs.length : ℚ) + 1) * hop := by
      ring
    rw [harith] at this
    have hlen : ((f :: fs).length : ℚ) = (fs.length : ℚ) + 1 := by
      rw [List.length_cons]
      push_cast
      ring
    rw [attachTimes, List.foldl_cons, hlen]
    exact this

/-- Frame-center times at fixed spacing hop starting at t0: the k-th frame
center is t0 + k * hop. -/
def frameTimes (t0 hop : ℚ) (n : ℕ) : List ℚ :=
  (List.range n).map (fun k : ℕ => t0 + (k : ℚ) * hop)

theorem zip_attachTimes (hop : ℚ) :
    ∀ (ls : List ℤ) (ms : List Bool) (t0 : ℚ), ls.length = ms.length →
      ls.zip (ms.zip (frameTimes t0 hop ls.length)) =
        attachTimes hop (ls.zip ms) t0 := by
  intro ls
  induction ls with
  | nil => intro ms t0 _; simp [attachTimes, frameTimes]
  | cons a ls ih =>
    intro ms t0 hlen
    cases ms with
    | nil => simp at hlen
    | cons b ms =>
      have hlen' : ls.length = ms.length := by simpa using hlen
      rw [frameTimes, List.length_cons, List.range_succ_eq_map, List.map_cons,
        List.map_map]
      have hhead : t0 + ((0:ℕ):ℚ) * hop = t0 := by push_cast; ring
      have hfun : ((fun k : ℕ => t0 + (k:ℚ) * hop) ∘ Nat.succ) =
          (fun k : ℕ => (t0 + hop) + (k:ℚ) * hop) := by
        funext k
        simp only [Function.comp]
        push_cast
        ring
      rw [hhead, hfun]
      rw [List.zip_cons_cons, List.zip_cons_cons]
      have htail : (List.range ls.length).map (fun k : ℕ => (t0 + hop) + (k:ℚ) * hop) =
          frameTimes (t0 + hop) hop ls.length := rfl
      rw [htail]
      show (a, b, t0) :: ls.zip (ms.zip (frameTimes (t0 + hop) hop ls.length)) =
        (a, b, t0) :: attachTimes hop (ls.zip ms) (t0 + hop)
      rw [ih ms (t0 + hop) hlen']

theorem getLastD_range_map (f : ℕ → ℚ) (n : ℕ) (hn : 0 < n) :
    ((List.range n).map f).getLastD 0 = f (n - 1) := by
  obtain ⟨m, rfl⟩ := Nat.exists_eq_add_of_lt hn
  simp only [Nat.zero_add]
  rw [List.range_succ, List.map_append, List.map_cons, List.map_nil]
  rw [List.getLastD_eq_getLast?, List.getLast?_concat]
  simp

theorem rawSegments_wellFormed (labels : List ℤ) (speech_mask : List Bool)
    (t0 hop : ℚ) (hhop : 1 / 1000 ≤ hop) (hlm : labels.length = speech_mask.length) :
    wellFormed (rawSegments labels speech_mask
      (frameTimes t0 hop labels.length) hop) := by
  have hinit : openInv hop t0 (([] : List Segment), (none : Option (String × ℚ))) := by
    exact ⟨⟨by simp, by simp⟩, by intro s hs; simp at hs⟩
  have hrun := foldl_diarize_inv hop hhop (labels.zip speech_mask) t0 ([], none) hinit
  rw [← zip_attachTimes hop labels speech_mask t0 hlm] at hrun
  set times := frameTimes t0 hop labels.length with htimes
  set st := (labels.zip (speech_mask.zip times)).foldl (diarizeStep hop) ([], none) with hst
  have hgoal : rawSegments labels speech_mask times hop =
      (match st.2 with
       | some cs =>
           st.1 ++ [⟨cs.1, roundTo 3 cs.2, roundTo 3 (times.getLastD 0 + hop / 2)⟩]
       | none => st.1) := rfl
  rw [hgoal]
  cases hcur : st.2 with
  | none =>
    exact hrun.1
  | some cs =>
    have hn : 0 < labels.length := by
      rcases labels with _ | ⟨x, xs⟩
      · rw [hst] at hcur
        simp at hcur
      · simp
    obtain ⟨hwf, hinv⟩ := hrun
    rw [hcur] at hinv
    obtain ⟨hopen, hstart⟩ := hinv
    have hlast : times.getLastD 0 = t0 + ((labels.length - 1 : ℕ) : ℚ) * hop := by
      rw [htimes, frameTimes]
      exact getLastD_range_map _ _ hn
    have hlen1 : (labels.zip speech_mask).length = labels.length := by
      rw [List.length_zip, hlm, Nat.min_self]
    have hstart' : cs.2 + hop ≤ t0 + (labels.length : ℚ) * hop - hop / 2 := by
      have := hstart
      rw [hlen1] at this
      exact this
    have hcast : ((labels.length - 1 : ℕ) : ℚ) = (labels.length : ℚ) - 1 := by
      have : (1:ℕ) ≤ labels.length := hn
      push_cast [this]
      ring
    have hclose : cs.2 + 1 / 1000 ≤ times.getLastD 0 + hop / 2 := by
      rw [hlast, hcast]
      have h1 : cs.2 + hop ≤ t0 + (labels.length : ℚ) * hop - hop / 2 := hstart'
      nlinarith [hhop]
    have hx : roundTo 3 cs.2 < roundTo 3 (times.getLastD 0 + hop / 2) := by
      apply roundTo_lt 3
      have : (1:ℚ) / 10 ^ 3 = 1 / 1000 := by norm_num
      rw [this]
      exact hclose
    exact wellFormed_append_one st.1 _ hwf hx hopen

/-! ### Claim theorems -/

/-- C4: overlapping discretized segments resolve last-write-wins: whenever the
final segment of the input list covers frame i, that frame holds its speaker
id, regardless of all earlier segments (and in particular when an earlier
overlapping segment has a different or the same speaker); the framer is a
total function, so no overlap ever raises an error. -/
theorem segments_to_frames_last_write_wins (l : List Segment) (s : Segment)
    (d fs : ℚ) (i : ℕ) (hc : coversB s fs (numFramesOf d fs) i = true) :
    frameAt (segments_to_frames (l ++ [s]) d fs) i = some s.speaker := by
  rw [frameAt_segments_to_frames]
  have hrev : (l ++ [s]).reverse = s :: l.reverse := by simp
  rw [hrev]
  simp only [List.find?_cons, hc, Option.map_some']

theorem coversB_witness_eval : coversB ⟨"Y", 1/2, 1⟩ (1/10) (numFramesOf 1 (1/10)) 5 = true := by
  have h1 : startFrame ⟨"Y", 1/2, 1⟩ (1/10) = 5 := by
    unfold startFrame
    norm_num
    decide
  have h2 : endFrame ⟨"Y", 1/2, 1⟩ (1/10) = 10 := by
    unfold endFrame
    norm_num
    decide
  have h3 : numFramesOf 1 (1/10) = 10 := by
    unfold numFramesOf
    norm_num
    decide
  rw [coversB, h1, h2, h3]
  decide

/-- Witness for C4: the second of two overlapping segments wins on a frame
inside the overlap. -/
theorem segments_to_frames_last_write_wins_witness :
    coversB ⟨"Y", 1/2, 1⟩ (1/10) (numFramesOf 1 (1/10)) 5 = true ∧
    frameAt (segments_to_frames [⟨"X", 0, 1⟩, ⟨"Y", 1/2, 1⟩] 1 (1/10)) 5 = some "Y" :=
  ⟨coversB_witness_eval,
   segments_to_frames_last_write_wins [⟨"X", 0, 1⟩] ⟨"Y", 1/2, 1⟩ 1 (1/10) 5
     coversB_witness_eval⟩

/-- C8: the framer yields a grid of exactly ceil(duration / frame_size)
slots, and each slot holds the speaker of the last input segment whose
clamped discretized range [floor(start/fs), min(ceil(end/fs), length))
contains it, Silence when no segment covers it; ranges falling outside the
grid are clipped by the min, never rejected. -/
theorem segments_to_frames_spec (segments : List Segment) (d fs : ℚ)
    (hd : 0 < d) (hfs : 0 < fs) (hstarts : ∀ s ∈ segments, 0 ≤ s.start) :
    (segments_to_frames segments d fs).length = numFramesOf d fs ∧
    ∀ i, frameAt (segments_to_frames segments d fs) i =
      (segments.reverse.find? (fun s => coversB s fs (numFramesOf d fs) i)).map
        Segment.speaker :=
  ⟨length_segments_to_frames segments d fs,
   fun i => frameAt_segments_to_frames segments d fs i⟩

/-- Witness for C8 at a one-segment input on a 10-slot grid. -/
theorem segments_to_frames_spec_witness :
    ((0:ℚ) < 1 ∧ (0:ℚ) < 1/10 ∧ ∀ s ∈ [(⟨"A", 0, 1/2⟩ : Segment)], 0 ≤ s.start) ∧
    ((segments_to_frames [⟨"A", 0, 1/2⟩] 1 (1/10)).length = numFramesOf 1 (1/10) ∧
     ∀ i, frameAt (segments_to_frames [⟨"A", 0, 1/2⟩] 1 (1/10)) i =
       ([(⟨"A", 0, 1/2⟩ : Segment)].reverse.find?
         (fun s => coversB s (1/10) (numFramesOf 1 (1/10)) i)).map Segment.speaker) :=
  ⟨⟨by norm_num, by norm_num,
    by intro s hs; rw [List.mem_singleton] at hs; subst hs; norm_num⟩,
   segments_to_frames_spec [⟨"A", 0, 1/2⟩] 1 (1/10) (by norm_num) (by norm_num)
     (by intro s hs; rw [List.mem_singleton] at hs; subst hs; norm_num)⟩

/-- C6: frame accuracy is the number of voiced ground-truth frames whose
prediction is voiced and maps to the ground-truth label, divided by the
number of voiced ground-truth frames, and 0 when that total is 0; silent
predictions enter the denominator but never the numerator because frameOK
demands a voiced prediction. -/
theorem compute_accuracy_spec (p g : List (Option String))
    (m : List (String × String)) (collar : ℕ) :
    compute_accuracy p g m collar =
      (if g.countP (fun gl => gl.isSome) = 0 then 0
       else ((g.enum.countP (fun ig => frameOK p m ig.1 ig.2) : ℚ) /
             (g.countP (fun gl => gl.isSome) : ℚ))) :=
  compute_accuracy_eq_counts p g m collar

/-- C9: the collar parameter of compute_accuracy is dead: two runs differing
only in collar_frames return identical accuracies. -/
theorem compute_accuracy_collar_noninterference (p g : List (Option String))
    (m : List (String × String)) (c₁ c₂ : ℕ) :
    compute_accuracy p g m c₁ = compute_accuracy p g m c₂ := rfl

/-- C7: the short-gap merge pass is idempotent: a second pass over its own
output merges nothing further. -/
theorem mergeGaps_idempotent (l : List Segment) :
    mergeGaps (mergeGaps l) = mergeGaps l := by
  cases l with
  | nil => rfl
  | cons s rest =>
    exact mergeGaps_of_settled (mergeAux s rest) (settledGaps_mergeAux rest s)

theorem roundTo_zero (d : ℕ) : roundTo d 0 = 0 := by
  simp [roundTo]

/-- C5: the DER components count, over the union length of the two grids
with out-of-range frames read as Silence, exactly the missed-speech,
false-alarm, confusion and total-speech frames, and the reported der equals
100 * (missed + false_alarm + confusion) / total_speech_frames up to the
2-decimal rounding (absolute error at most 1/200), with der = 0 when
total_speech_frames = 0. -/
theorem compute_der_components_spec (p g : List (Option String))
    (m : List (String × String)) :
    (compute_der_components p g m).missed_speech =
      (List.range (max p.length g.length)).countP (missedB p g) ∧
    (compute_der_components p g m).false_alarm =
      (List.range (max p.length g.length)).countP (falseAlarmB p g) ∧
    (compute_der_components p g m).speaker_confusion =
      (List.range (max p.length g.length)).countP (confusionB p g m) ∧
    (compute_der_components p g m).total_speech_frames =
      (List.range (max p.length g.length)).countP (speechB g) ∧
    ((compute_der_components p g m).total_speech_frames = 0 →
      (compute_der_components p g m).der = 0) ∧
    (0 < (compute_der_components p g m).total_speech_frames →
      |(compute_der_components p g m).der -
        100 * ((((compute_der_components p g m).missed_speech +
                 (compute_der_components p g m).false_alarm +
                 (compute_der_components p g m).speaker_confusion : ℕ) : ℚ) /
               ((compute_der_components p g m).total_speech_frames : ℚ))| ≤ 1 / 200) := by
  have hfold := der_counts p g m (List.range (max p.length g.length)) (0, 0, 0, 0)
  simp only [Nat.zero_add] at hfold
  have hcomp : compute_der_components p g m = derFromCounts
      ((List.range (max p.length g.length)).countP (missedB p g),
       (List.range (max p.length g.length)).countP (falseAlarmB p g),
       (List.range (max p.length g.length)).countP (confusionB p g m),
       (List.range (max p.length g.length)).countP (speechB g)) := by
    unfold compute_der_components
    rw [hfold]
  rw [hcomp]
  set M := (List.range (max p.length g.length)).countP (missedB p g) with hM
  set FA := (List.range (max p.length g.length)).countP (falseAlarmB p g) with hFA
  set CF := (List.range (max p.length g.length)).countP (confusionB p g m) with hCF
  set T := (List.range (max p.length g.length)).countP (speechB g) with hT
  refine ⟨rfl, rfl, rfl, rfl, ?_, ?_⟩
  · intro h0
    have h0' : T = 0 := h0
    show roundTo 2 ((if T = 0 then 0
      else ((M : ℚ) + (FA : ℚ) + (CF : ℚ)) / (T : ℚ)) * 100) = 0
    rw [if_pos h0', zero_mul, roundTo_zero]
  · intro hpos
    have hpos' : T ≠ 0 := Nat.pos_iff_ne_zero.mp hpos
    show |roundTo 2 ((if T = 0 then 0
        else ((M : ℚ) + (FA : ℚ) + (CF : ℚ)) / (T : ℚ)) * 100) -
      100 * (((M + FA + CF : ℕ) : ℚ) / (T : ℚ))| ≤ 1 / 200
    rw [if_neg hpos']
    have harr : 100 * (((M + FA + CF : ℕ) : ℚ) / (T : ℚ)) =
        ((M : ℚ) + (FA : ℚ) + (CF : ℚ)) / (T : ℚ) * 100 := by
      push_cast
      ring
    rw [harr]
    have hclose := roundTo_close 2 (((M : ℚ) + (FA : ℚ) + (CF : ℚ)) / (T : ℚ) * 100)
    have h200 : (1:ℚ) / (2 * 10 ^ 2) = 1 / 200 := by norm_num
    rw [h200] at hclose
    exact hclose

/-- Witness for C5 at grids of unequal length with one missed frame. -/
theorem compute_der_components_spec_witness :
    (0 < (compute_der_components [some "P"] [some "A", some "A"]
        [("P", "A")]).total_speech_frames) ∧
    |(compute_der_components [some "P"] [some "A", some "A"] [("P", "A")]).der -
      100 * ((((compute_der_components [some "P"] [some "A", some "A"]
                 [("P", "A")]).missed_speech +
               (compute_der_components [some "P"] [some "A", some "A"]
                 [("P", "A")]).false_alarm +
               (compute_der_components [some "P"] [some "A", some "A"]
                 [("P", "A")]).speaker_confusion : ℕ) : ℚ) /
             ((compute_der_components [some "P"] [some "A", some "A"]
                 [("P", "A")]).total_speech_frames : ℚ))| ≤ 1 / 200 :=
  ⟨by decide,
   (compute_der_components_spec [some "P"] [some "A", some "A"]
     [("P", "A")]).2.2.2.2.2 (by decide)⟩

/-- C2 (amended): when neither speaker-id list is empty and the ground-truth
grid has no voiced frame at all, align returns the empty mapping and accuracy
1.0; the source checks the empty-list guard first, so an empty list instead
yields accuracy 0.0. -/
theorem find_best_mapping_vacuous (ps gs : List String) (pf gf : List (Option String))
    (hp : ps ≠ []) (hg : gs ≠ [])
    (hv : gf.all (fun s => s.isNone) = true) :
    find_best_mapping ps gs pf gf = ([], 1) := by
  unfold find_best_mapping
  have hcond : ¬(ps.length = 0 ∨ gs.length = 0) := by
    rintro (h | h)
    · exact hp (List.length_eq_zero.mp h)
    · exact hg (List.length_eq_zero.mp h)
  rw [if_neg hcond, if_pos hv]

/-- Witness for C2 at a one-speaker, all-silent ground truth. -/
theorem find_best_mapping_vacuous_witness :
    ((["P"] : List String) ≠ [] ∧ (["A"] : List String) ≠ [] ∧
      ([none] : List (Option String)).all (fun s => s.isNone) = true) ∧
    find_best_mapping ["P"] ["A"] [] [none] = ([], 1) :=
  ⟨⟨by decide, by decide, by decide⟩,
   find_best_mapping_vacuous ["P"] ["A"] [] [none] (by decide) (by decide) (by decide)⟩

/-- Counterexample to C2 as stated: with an empty predicted speaker list and
a ground truth with zero voiced frames, align returns accuracy 0.0, not the
claimed 1.0. -/
theorem claim2_counterexample :
    (([] : List (Option String)).all (fun s => s.isNone) = true) ∧
    find_best_mapping [] ["A"] [] [] = ([], 0) ∧
    (([], 0) : List (String × String) × ℚ) ≠ ([], 1) := by
  refine ⟨rfl, by simp [find_best_mapping], by simp⟩

/-- C1 (amended): under the claim premises, the returned accuracy is the
maximum candidate accuracy; when that maximum is positive the returned
mapping is the first candidate in enumeration order attaining it, but when
the maximum is 0 the scan never updates its strict comparison and the empty
initial mapping is returned instead of the first candidate. -/
theorem find_best_mapping_spec (ps gs : List String) (pf gf : List (Option String))
    (hp : ps ≠ []) (hg : gs ≠ [])
    (hv : ¬ gf.all (fun s => s.isNone) = true)
    (hle : ps.length ≤ gs.length) :
    (∀ m ∈ candidate_mappings ps gs,
        compute_accuracy pf gf m 2 ≤ (find_best_mapping ps gs pf gf).2) ∧
    (∃ m ∈ candidate_mappings ps gs,
        compute_accuracy pf gf m 2 = (find_best_mapping ps gs pf gf).2) ∧
    (0 < (find_best_mapping ps gs pf gf).2 →
      ∃ pre post, candidate_mappings ps gs =
          pre ++ (find_best_mapping ps gs pf gf).1 :: post ∧
        compute_accuracy pf gf (find_best_mapping ps gs pf gf).1 2 =
          (find_best_mapping ps gs pf gf).2 ∧
        ∀ m ∈ pre, compute_accuracy pf gf m 2 < (find_best_mapping ps gs pf gf).2) ∧
    ((find_best_mapping ps gs pf gf).2 = 0 → (find_best_mapping ps gs pf gf).1 = []) := by
  have hcond : ¬(ps.length = 0 ∨ gs.length = 0) := by
    rintro (h | h)
    · exact hp (List.length_eq_zero.mp h)
    · exact hg (List.length_eq_zero.mp h)
  have hred : find_best_mapping ps gs pf gf =
      (candidate_mappings ps gs).foldl (bestStep pf gf) ([], 0) := by
    unfold find_best_mapping
    rw [if_neg hcond, if_neg hv]
  have hne : candidate_mappings ps gs ≠ [] := by
    unfold candidate_mappings
    rw [if_pos hle]
    intro hmap
    exact pick_ne_nil ps.length gs hle (List.map_eq_nil_iff.mp hmap)
  rw [hred]
  set r := (candidate_mappings ps gs).foldl (bestStep pf gf) ([], 0) with hr
  obtain ⟨hle0, hcase⟩ := foldl_bestStep_spec pf gf (candidate_mappings ps gs) ([], 0)
  rw [← hr] at hle0 hcase
  rcases hcase with ⟨heq, hall⟩ | ⟨pre, post, hsplit, hacc, hlt, hpre, hpost⟩
  · rw [heq]
    obtain ⟨m₀, hm₀⟩ := List.exists_mem_of_ne_nil _ hne
    have hall' : ∀ m ∈ candidate_mappings ps gs, compute_accuracy pf gf m 2 ≤ 0 :=
      fun m hm => hall m hm
    have hm0acc : compute_accuracy pf gf m₀ 2 = 0 :=
      le_antisymm (hall' m₀ hm₀) (compute_accuracy_nonneg pf gf m₀ 2)
    refine ⟨fun m hm => hall' m hm, ⟨m₀, hm₀, hm0acc⟩, ?_, fun _ => rfl⟩
    intro h0
    have h0' : (0:ℚ) < 0 := h0
    exact absurd h0' (lt_irrefl 0)
  · refine ⟨?_, ?_, ?_, ?_⟩
    · intro m hm
      rw [hsplit] at hm
      rcases List.mem_append.mp hm with h | h
      · exact le_of_lt (hpre m h)
      · rcases List.mem_cons.mp h with h | h
        · rw [h]
          exact le_of_eq hacc
        · exact hpost m h
    · refine ⟨r.1, ?_, hacc⟩
      rw [hsplit]
      exact List.mem_append_right _ (List.mem_cons_self _ _)
    · intro _
      exact ⟨pre, post, hsplit, hacc, hpre⟩
    · intro h0
      exfalso
      have hlt' : (0:ℚ) < r.2 := hlt
      rw [h0] at hlt'
      exact absurd hlt' (lt_irrefl 0)

/-- Witness for C1 at a one-speaker perfect prediction. -/
theorem find_best_mapping_spec_witness :
    ((["P"] : List String) ≠ [] ∧ (["A"] : List String) ≠ [] ∧
     ¬ ([some "A"] : List (Option String)).all (fun s => s.isNone) = true ∧
     (["P"] : List String).length ≤ (["A"] : List String).length) ∧
    ((∀ m ∈ candidate_mappings ["P"] ["A"],
        compute_accuracy [some "P"] [some "A"] m 2 ≤
          (find_best_mapping ["P"] ["A"] [some "P"] [some "A"]).2) ∧
     (∃ m ∈ candidate_mappings ["P"] ["A"],
        compute_accuracy [some "P"] [some "A"] m 2 =
          (find_best_mapping ["P"] ["A"] [some "P"] [some "A"]).2) ∧
     (0 < (find_best_mapping ["P"] ["A"] [some "P"] [some "A"]).2 →
       ∃ pre post, candidate_mappings ["P"] ["A"] =
           pre ++ (find_best_mapping ["P"] ["A"] [some "P"] [some "A"]).1 :: post ∧
         compute_accuracy [some "P"] [some "A"]
             (find_best_mapping ["P"] ["A"] [some "P"] [some "A"]).1 2 =
           (find_best_mapping ["P"] ["A"] [some "P"] [some "A"]).2 ∧
         ∀ m ∈ pre, compute_accuracy [some "P"] [some "A"] m 2 <
           (find_best_mapping ["P"] ["A"] [some "P"] [some "A"]).2) ∧
     ((find_best_mapping ["P"] ["A"] [some "P"] [some "A"]).2 = 0 →
       (find_best_mapping ["P"] ["A"] [some "P"] [some "A"]).1 = [])) :=
  ⟨⟨by decide, by decide, by decide, by decide⟩,
   find_best_mapping_spec ["P"] ["A"] [some "P"] [some "A"]
     (by decide) (by decide) (by decide) (by decide)⟩

/-- Counterexample to C1 as stated: all claim premises hold, the single
candidate mapping attains the maximal accuracy 0, yet the function returns
the empty mapping, which is not a candidate at all. -/
theorem claim1_counterexample :
    ((["P"] : List String) ≠ [] ∧ (["A"] : List String) ≠ [] ∧
     ¬ ([some "A"] : List (Option String)).all (fun s => s.isNone) = true ∧
     (["P"] : List String).length ≤ (["A"] : List String).length) ∧
    candidate_mappings ["P"] ["A"] = [[("P", "A")]] ∧
    find_best_mapping ["P"] ["A"] [none] [some "A"] = ([], 0) ∧
    ([] : List (String × String)) ∉ candidate_mappings ["P"] ["A"] := by
  refine ⟨⟨by decide, by decide, by decide, by decide⟩, by decide, ?_, by decide⟩
  have hcand : candidate_mappings ["P"] ["A"] = [[("P", "A")]] := by decide
  simp [find_best_mapping, hcand, bestStep, compute_accuracy,
    accuracyStep, frameAt, mapGet, List.enum, List.enumFrom]

/-- C3 (amended): in the excess-prediction branch every candidate mapping is
total on the predicted ids, and every predicted id outside the selected
permutation is mapped to gt_speakers[0], the head of the ground-truth list as
given (not the first id in sorted order). -/
theorem candidate_mappings_excess_spec (ps gs : List String)
    (hgt : gs.length < ps.length) (hgs : gs ≠ []) :
    ∀ m ∈ candidate_mappings ps gs, ∃ perm ∈ pick gs.length ps,
      m = buildFull perm gs ps ∧
      (∀ p ∈ ps, ∃ g, mapLookup m p = some g) ∧
      (∀ p ∈ ps, p ∉ perm → mapLookup m p = some (gs.headD "")) := by
  intro m hm
  unfold candidate_mappings at hm
  rw [if_neg (by omega : ¬ ps.length ≤ gs.length)] at hm
  obtain ⟨perm, hperm, rfl⟩ := List.mem_map.mp hm
  refine ⟨perm, hperm, rfl, ?_, ?_⟩
  · intro p hp
    by_cases hmem : p ∈ perm
    · exact buildFull_total_sel ps gs perm p hmem (le_of_eq (pick_length _ _ perm hperm))
    · exact ⟨gs.headD "", buildFull_default ps gs perm p hp hmem⟩
  · intro p hp hnp
    exact buildFull_default ps gs perm p hp hnp

/-- Witness for C3 at three predicted and two ground-truth speakers. -/
theorem candidate_mappings_excess_spec_witness :
    ((["B","A"] : List String).length < (["P","Q","R"] : List String).length ∧
     (["B","A"] : List String) ≠ [] ∧
     [("P","B"),("Q","A"),("R","B")] ∈ candidate_mappings ["P","Q","R"] ["B","A"]) ∧
    (∃ perm ∈ pick (["B","A"] : List String).length ["P","Q","R"],
      [("P","B"),("Q","A"),("R","B")] = buildFull perm ["B","A"] ["P","Q","R"] ∧
      (∀ p ∈ (["P","Q","R"] : List String), ∃ g,
        mapLookup [("P","B"),("Q","A"),("R","B")] p = some g) ∧
      (∀ p ∈ (["P","Q","R"] : List String), p ∉ perm →
        mapLookup [("P","B"),("Q","A"),("R","B")] p =
          some ((["B","A"] : List String).headD ""))) :=
  ⟨⟨by decide, by decide, by decide⟩,
   candidate_mappings_excess_spec ["P","Q","R"] ["B","A"] (by decide) (by decide)
     [("P","B"),("Q","A"),("R","B")] (by decide)⟩

/-- Counterexample to C3 as stated: with ground-truth list ["B", "A"], the
candidate built from the selection ["P", "Q"] maps the leftover id "R" to
"B", the first element of the list as given, while the first ground-truth id
in sorted order is "A". -/
theorem claim3_counterexample :
    [("P","B"),("Q","A"),("R","B")] ∈ candidate_mappings ["P","Q","R"] ["B","A"] ∧
    ("R" : String) ∈ (["P","Q","R"] : List String) ∧
    ("R" : String) ∉ (["P","Q"] : List String) ∧
    mapLookup [("P","B"),("Q","A"),("R","B")] "R" = some "B" ∧
    ("A" : String) ∈ (["B","A"] : List String) ∧
    ("A" : String) ≤ "B" ∧ ("A" : String) ≤ "A" ∧
    ("B" : String) ≠ "A" := by
  refine ⟨by decide, by decide, by decide, by decide, by decide, ?_, le_refl _, by decide⟩
  rw [String.le_iff_toList_le]
  decide

/-- C10 (amended): with frame centers spaced exactly hop apart and
hop at least 0.001 (the millisecond resolution the emitted times are rounded
to), every output segment of labels_to_segments has start strictly below end
and consecutive segments never go back in time, so the output re-ingests as
a Segment list. -/
theorem labels_to_segments_wellFormed (labels : List ℤ) (speech_mask : List Bool)
    (t0 hop : ℚ) (hhop : 1 / 1000 ≤ hop)
    (hlm : labels.length = speech_mask.length) :
    wellFormed (labels_to_segments labels speech_mask
      (frameTimes t0 hop labels.length) hop) :=
  mergeGaps_wellFormed _ (rawSegments_wellFormed labels speech_mask t0 hop hhop hlm)

/-- Counterexample to C10 as stated: with the positive hop 0.0001 s, a single
speech frame at time 0 produces the open boundary -hop/2 and the close
boundary +hop/2, both of which round to 0 ms, so the unique output segment
has start = end and the output is not well formed. -/
theorem claim10_counterexample :
    (0 : ℚ) < 1/10000 ∧
    labels_to_segments [0] [true] (frameTimes 0 (1/10000) ([0] : List ℤ).length)
      (1/10000) = [⟨speakerName 0, 0, 0⟩] ∧
    ¬ wellFormed [(⟨speakerName 0, 0, 0⟩ : Segment)] := by
  refine ⟨by norm_num, ?_, ?_⟩
  · have htimes : frameTimes 0 (1/10000) ([0] : List ℤ).length = [(0:ℚ)] := by
      simp [frameTimes, List.range_succ]
    rw [htimes]
    have hr1 : roundTo 3 ((0:ℚ) - 1/10000 / 2) = 0 := by
      unfold roundTo
      rw [round_eq]
      norm_num
    have hr2 : roundTo 3 (([(0:ℚ)].getLastD 0) + 1/10000 / 2) = 0 := by
      unfold roundTo
      rw [round_eq]
      norm_num
    unfold labels_to_segments rawSegments
    simp only [List.zip_cons_cons, List.zip_nil_right, List.zip_nil_left,
      List.foldl_cons, List.foldl_nil]
    rw [show diarizeStep (1/10000) ([], none) (0, true, 0) =
        ([], some (speakerName 0, 0 - 1/10000 / 2)) from rfl]
    simp only []
    rw [hr1, hr2]
    rfl
  · intro h
    have h1 := h.1 ⟨speakerName 0, 0, 0⟩ (by simp)
    exact absurd h1 (lt_irrefl 0)

/-- Witness for C10 on a two-frame speech input at a 100 ms hop. -/
theorem labels_to_segments_wellFormed_witness :
    ((1:ℚ)/1000 ≤ 1/10 ∧ ([0, 1] : List ℤ).length = ([true, true] : List Bool).length) ∧
    wellFormed (labels_to_segments [0, 1] [true, true]
      (frameTimes 0 (1/10) ([0, 1] : List ℤ).length) (1/10)) :=
  ⟨⟨by norm_num, by decide⟩,
   labels_to_segments_wellFormed [0, 1] [true, true] 0 (1/10) (by norm_num) (by decide)⟩

end WhisperType
